import Mathlib

/-!
Verification of the paginated IGDB extraction engine (`src/igdb_data.py`).

The shallow embedding below translates the source file into Lean:

* `Value` models the JSON values the IGDB server returns inside a record
  (`r.json()` yields lists of objects whose values are strings, integers,
  booleans, null, arrays, or nested objects).  JSON floating-point numbers
  are outside the embedding; every claim concerns integer-valued data.
* `flattenValue` / `flattenRow` model the flattening loop
  (`for k, v in list(row.items()): ...`), including Python `str` and
  `json.dumps(v, separators=(",", ":"))`.
* `runLoop` / `igdb_query_all` model the pagination loop with the server
  abstracted as the list of HTTP responses it would give to the successive
  requests, and the CSV file modelled at row granularity.
-/

namespace IgdbData

/-! ## Decimal digits (Python `str` of an integer, also used by `json.dumps`) -/

/-- Character for one decimal digit (`0 ≤ n < 10`). -/
def digitChar (n : Nat) : Char := Char.ofNat (48 + n)

/-- Fuel-driven accumulator loop producing the decimal digits of `n`
in front of `acc`; `fuel > n` always suffices. -/
def natDigitsAux : Nat → Nat → List Char → List Char
  | 0, _, acc => acc
  | fuel + 1, n, acc =>
    if n < 10 then digitChar n :: acc
    else natDigitsAux fuel (n / 10) (digitChar (n % 10) :: acc)

/-- Decimal digit string of a natural number, as Python `str` renders it. -/
def natDigits (n : Nat) : List Char := natDigitsAux (n + 1) n []

/-- Python `str` of an integer: optional minus sign followed by the
decimal digits of the absolute value. -/
def intStr (n : Int) : List Char :=
  if n < 0 then '-' :: natDigits n.natAbs else natDigits n.natAbs

/-! ## JSON-like record values -/

/-- Values of a record field as returned by the IGDB API: JSON scalars,
arrays, and nested objects.  (JSON floats are out of scope; the data the
claims concern is integral.) -/
inductive Value where
  | vnull : Value
  | vbool (b : Bool) : Value
  | vint (n : Int) : Value
  | vstr (s : String) : Value
  | vlist (xs : List Value) : Value
  | vdict (kvs : List (String × Value)) : Value
deriving Repr

/-- A record: the ordered field-name/value mapping of one JSON object
(`dict` in the source). -/
abbrev Record := List (String × Value)

/-- Whether a value is a Python `list` (`isinstance(v, list)`). -/
def Value.isVList : Value → Bool
  | .vlist _ => true
  | _ => false

/-- Whether a value is a Python `dict` (`isinstance(v, dict)`). -/
def Value.isVDict : Value → Bool
  | .vdict _ => true
  | _ => false

/-! ## Python `repr`/`str` (used by `"|".join(str(x) for x in v)`) -/

/-- Lowercase hexadecimal digit character (`0 ≤ n < 16`). -/
def hexDigit (n : Nat) : Char :=
  if n < 10 then Char.ofNat (48 + n) else Char.ofNat (87 + n)

/-- Two lowercase hex digits of `n < 256` (Python `\xNN` escapes). -/
def hex2 (n : Nat) : List Char := [hexDigit (n / 16 % 16), hexDigit (n % 16)]

/-- Four lowercase hex digits of `n < 65536` (JSON `\uNNNN` escapes). -/
def hex4 (n : Nat) : List Char :=
  [hexDigit (n / 4096 % 16), hexDigit (n / 256 % 16),
   hexDigit (n / 16 % 16), hexDigit (n % 16)]

/-- Python `repr` escaping of one character of a string literal rendered
with quote character `q`.  ASCII control characters get their usual
short escapes or `\xNN`; other characters stand for themselves.  (CPython
additionally escapes unprintable non-ASCII code points; the model treats
non-ASCII as printable, which is immaterial to every claim.) -/
def pyEscChar (q : Char) (c : Char) : List Char :=
  if c = '\\' then ['\\', '\\']
  else if c = q then ['\\', q]
  else if c = '\n' then ['\\', 'n']
  else if c = '\r' then ['\\', 'r']
  else if c = '\t' then ['\\', 't']
  else if c.toNat < 32 ∨ c.toNat = 127 then '\\' :: 'x' :: hex2 c.toNat
  else [c]

/-- Python `repr` of a string: single-quoted, unless the string contains a
single quote and no double quote, in which case double-quoted. -/
def pyStrRepr (s : String) : String :=
  let q : Char := if s.contains '\'' && !(s.contains '"') then '"' else '\''
  String.mk (q :: (s.data.map (pyEscChar q)).flatten ++ [q])

mutual

/-- Python `repr` of a record value. -/
def pyRepr : Value → String
  | .vnull => "None"
  | .vbool true => "True"
  | .vbool false => "False"
  | .vint n => String.mk (intStr n)
  | .vstr s => pyStrRepr s
  | .vlist xs => "[" ++ String.intercalate ", " (pyReprList xs) ++ "]"
  | .vdict kvs => "\x7b" ++ String.intercalate ", " (pyReprMembers kvs) ++ "\x7d"

/-- Python `repr` of each element of a list. -/
def pyReprList : List Value → List String
  | [] => []
  | x :: xs => pyRepr x :: pyReprList xs

/-- Python `repr` of each `key: value` entry of a dict. -/
def pyReprMembers : List (String × Value) → List String
  | [] => []
  | (k, v) :: kvs => (pyStrRepr k ++ ": " ++ pyRepr v) :: pyReprMembers kvs

end

/-- Python `str` of a record value: identical to `repr` except on strings,
which `str` returns verbatim. -/
def pyStr : Value → String
  | .vstr s => s
  | v => pyRepr v

/-! ## `json.dumps(v, separators=(",", ":"))` -/

/-- JSON string escaping of one character, as CPython's
`json.dumps` (default `ensure_ascii=True`) emits it: short escapes for
the usual control characters, printable ASCII verbatim, `\uNNNN` for
everything else, with surrogate pairs above `U+FFFF`. -/
def escChar (c : Char) : List Char :=
  if c = '"' then ['\\', '"']
  else if c = '\\' then ['\\', '\\']
  else if c = '\n' then ['\\', 'n']
  else if c = '\r' then ['\\', 'r']
  else if c = '\t' then ['\\', 't']
  else if c.toNat = 8 then ['\\', 'b']
  else if c.toNat = 12 then ['\\', 'f']
  else if 32 ≤ c.toNat ∧ c.toNat ≤ 126 then [c]
  else if c.toNat < 65536 then '\\' :: 'u' :: hex4 c.toNat
  else
    '\\' :: 'u' :: hex4 (55296 + (c.toNat - 65536) / 1024) ++
      '\\' :: 'u' :: hex4 (56320 + (c.toNat - 65536) % 1024)

/-- JSON escaping of a whole character list. -/
def escList (cs : List Char) : List Char := (cs.map escChar).flatten

mutual

/-- Character list emitted by `json.dumps(v, separators=(",", ":"))`. -/
def dumpsV : Value → List Char
  | .vnull => ['n', 'u', 'l', 'l']
  | .vbool true => ['t', 'r', 'u', 'e']
  | .vbool false => ['f', 'a', 'l', 's', 'e']
  | .vint n => intStr n
  | .vstr s => '"' :: escList s.data ++ ['"']
  | .vlist xs => '[' :: dumpsElems xs ++ [']']
  | .vdict kvs => '\x7b' :: dumpsMembers kvs ++ ['\x7d']

/-- Array elements joined with the `","` item separator. -/
def dumpsElems : List Value → List Char
  | [] => []
  | [x] => dumpsV x
  | x :: xs => dumpsV x ++ ',' :: dumpsElems xs

/-- Object members (`"key":value`) joined with the `","` item separator. -/
def dumpsMembers : List (String × Value) → List Char
  | [] => []
  | [(k, v)] => '"' :: escList k.data ++ '"' :: ':' :: dumpsV v
  | (k, v) :: kvs =>
    ('"' :: escList k.data ++ '"' :: ':' :: dumpsV v) ++ ',' :: dumpsMembers kvs

end

/-- Compact JSON encoding of a value, `json.dumps(v, separators=(",", ":"))`. -/
def jsonDumps (v : Value) : String := String.mk (dumpsV v)

/-! ## The flattening loop

The source mutates each row in place:

```
for k, v in list(row.items()):
    if isinstance(v, list):
        row[k] = "|".join(str(x) for x in v)
    elif isinstance(v, dict):
        row[k] = json.dumps(v, separators=(",", ":"))
```

Because the update is in place, the mapping produced below is at the same
time the flat row handed to `pd.DataFrame` and the post-state of the input
record object. -/

/-- What one field value becomes in the flattening loop. -/
def flattenValue : Value → Value
  | .vlist xs => .vstr (String.intercalate "|" (xs.map pyStr))
  | .vdict kvs => .vstr (jsonDumps (.vdict kvs))
  | v => v

/-- Flatten every field of a record (the body of the `for row in batch` loop). -/
def flattenRow (r : Record) : Record := r.map (fun p => (p.1, flattenValue p.2))

example : flattenRow [("x", .vlist [.vint 1, .vint 2, .vint 3])]
    = [("x", .vstr "1|2|3")] := by rfl

example : flattenRow [("y", .vdict [("a", .vint 1), ("b", .vint 2)])]
    = [("y", .vstr "\x7b\"a\":1,\"b\":2\x7d")] := by rfl

/-! ## The destination CSV file

The file is modelled at row granularity.  `pd.DataFrame(batch).to_csv(
out_path, index=False, mode="a", header=not out_path.exists())` appends one
chunk per flush, with the header present exactly when the file did not yet
exist.  Pre-existing content (from before the run) is an opaque list of
lines. -/

/-- One contiguous piece of the destination file. -/
inductive Chunk where
  /-- Content already on disk before this run touched the file. -/
  | raw (lines : List String) : Chunk
  /-- One `to_csv` append: `header` records whether the header row was
  written (i.e. the file did not exist at that moment), `rows` the
  flattened rows of the batch. -/
  | flushed (header : Bool) (rows : List Record) : Chunk
deriving Repr

/-- State of the destination path: absent, or a file made of chunks. -/
inductive FileState where
  | absent : FileState
  | file (chunks : List Chunk) : FileState
deriving Repr

/-- Python `out_path.exists()`. -/
def FileState.exists? : FileState → Bool
  | .absent => false
  | .file _ => true

/-- Python `out_path.unlink()` guarded by `if out_path.exists()`. -/
def FileState.reset (f : FileState) : FileState :=
  if f.exists? then .absent else f

/-- One `df.to_csv(..., mode="a", header=not out_path.exists())` call. -/
def FileState.append (f : FileState) (rows : List Record) : FileState :=
  match f with
  | .absent => .file [.flushed true rows]
  | .file cs => .file (cs ++ [.flushed false rows])

/-- Flush a sequence of (already flattened) batches in order. -/
def flushAll (f : FileState) (batches : List (List Record)) : FileState :=
  batches.foldl FileState.append f

/-! ## The pagination loop -/

/-- One HTTP response of the data endpoint: its status code, and the batch
of records its JSON body holds (consulted only when the loop reaches
`r.json()`). -/
structure Resp where
  status : Nat
  batch : List Record
deriving Repr

/-- Externally visible actions of the loop, in order: each POST with its
query body, and each `time.sleep` with its duration in milliseconds
(`time.sleep(1.0)` on 429, `time.sleep(sleep_between)` between pages). -/
inductive Event where
  | request (body : String) : Event
  | sleepMs (ms : Nat) : Event
deriving Repr

/-- Per-table query configuration (the keyword arguments of
`igdb_query_all`); `sleepBetweenMs` is `sleep_between` in milliseconds,
default `0.35 s = 350 ms`. -/
structure QueryCfg where
  endpoint : String
  fields : String
  whereClause : Option String
  sort : String
  sleepBetweenMs : Nat

/-- The query body built at the top of the loop:
`fields <fields>; [where <w>;] sort <sort>; limit <limit>; offset <offset>;`. -/
def queryBody (cfg : QueryCfg) (limit offset : Nat) : String :=
  "fields " ++ cfg.fields ++ ";" ++
    (match cfg.whereClause with
      | some w => " where " ++ w ++ ";"
      | none => "") ++
    " sort " ++ cfg.sort ++ "; limit " ++ String.mk (natDigits limit) ++
    "; offset " ++ String.mk (natDigits offset) ++ ";"

/-- The cap guard `if max_rows and total >= max_rows`: Python truthiness
of `max_rows` (`None` and `0` are falsy) followed by the comparison. -/
def capReached (maxRows : Option Nat) (total : Nat) : Bool :=
  match maxRows with
  | none => false
  | some m => if m = 0 then false else decide (m ≤ total)

/-- Outcome of a run. -/
inductive RunResult where
  /-- The loop broke out normally; `total` rows were written. -/
  | done (total : Nat) (file : FileState) : RunResult
  /-- `r.raise_for_status()` raised inside the loop. -/
  | failed (status : Nat) (file : FileState) : RunResult
  /-- `resp.raise_for_status()` raised during the token exchange. -/
  | authFailed (status : Nat) (file : FileState) : RunResult
  /-- The supplied response trace ran out while the loop was still going
  (the real loop would issue another request here). -/
  | outOfResponses (offset total : Nat) (file : FileState) : RunResult
deriving Repr

/-- The `done` total, when the run finished normally. -/
def RunResult.total? : RunResult → Option Nat
  | .done t _ => some t
  | _ => none

/-- The `while True` loop of `igdb_query_all`, with the server abstracted
as the list of responses to the successive POSTs.  `limit` is the
hard-coded page size 500.  Returns the outcome together with the list of
observable events (requests and sleeps) in order. -/
def runLoop (cfg : QueryCfg) (maxRows : Option Nat) :
    List Resp → Nat → Nat → FileState → RunResult × List Event
  | [], offset, total, file => (.outOfResponses offset total file, [])
  | r :: rest, offset, total, file =>
    let ev := Event.request (queryBody cfg 500 offset)
    if r.status = 429 then
      let p := runLoop cfg maxRows rest offset total file
      (p.1, ev :: .sleepMs 1000 :: p.2)
    else if 400 ≤ r.status ∧ r.status < 600 then
      (.failed r.status file, [ev])
    else
      match r.batch with
      | [] => (.done total file, [ev])
      | b =>
        let file' := file.append (b.map flattenRow)
        let total' := total + b.length
        let offset' := offset + 500
        if capReached maxRows total' then (.done total' file', [ev])
        else
          let p := runLoop cfg maxRows rest offset' total' file'
          (p.1, ev :: .sleepMs cfg.sleepBetweenMs :: p.2)

/-- One response of the token endpoint (`requests.post(TOKEN_URL, ...)`):
its status and the `access_token` field of its JSON body. -/
structure AuthResp where
  status : Nat
  token : String
deriving Repr

/-- `get_app_access_token`: `raise_for_status` then `data["access_token"]`.
No retry: any HTTP error status propagates. -/
def get_app_access_token (resp : AuthResp) : Except Nat String :=
  if 400 ≤ resp.status ∧ resp.status < 600 then .error resp.status
  else .ok resp.token

/-- `igdb_query_all`: acquire the token, reset the destination, then run
the pagination loop.  `file0` is the state of the destination path when
the function is called.  The source prints and returns `None`; the model
returns the `total` counter, which is the `rows_written` observable of the
spec. -/
def igdb_query_all (auth : AuthResp) (cfg : QueryCfg) (maxRows : Option Nat)
    (file0 : FileState) (responses : List Resp) : RunResult × List Event :=
  match get_app_access_token auth with
  | .error s => (.authFailed s file0, [])
  | .ok _ => runLoop cfg maxRows responses 0 0 file0.reset

/-! ## A JSON decoder

Modelled from the spec: the source contains no parser; the spec asserts
that the nested-mapping encoding produced by the Flattener is "parseable
back to an equivalent mapping".  The decoder below is the mathematical
witness of that sentence: a standard JSON reader for the grammar
`json.dumps(v, separators=(",", ":"))` emits, proved left-inverse to the
encoder. -/

/-- Numeric value of one hexadecimal digit character. -/
def hexVal (c : Char) : Option Nat :=
  if 48 ≤ c.toNat ∧ c.toNat ≤ 57 then some (c.toNat - 48)
  else if 97 ≤ c.toNat ∧ c.toNat ≤ 102 then some (c.toNat - 87)
  else if 65 ≤ c.toNat ∧ c.toNat ≤ 70 then some (c.toNat - 55)
  else none

/-- Value of a four-hex-digit escape `\uNNNN`. -/
def decodeHex4 (a b c d : Char) : Option Nat :=
  match hexVal a, hexVal b, hexVal c, hexVal d with
  | some x, some y, some z, some w => some (((x * 16 + y) * 16 + z) * 16 + w)
  | _, _, _, _ => none

/-- Read a maximal run of decimal digits, folding them onto `acc`. -/
def parseDigitsAux (acc : Nat) : List Char → Nat × List Char
  | [] => (acc, [])
  | c :: rest =>
    if c.isDigit then parseDigitsAux (acc * 10 + (c.toNat - 48)) rest
    else (acc, c :: rest)

/-- Read four hexadecimal digits, returning their value. -/
def readHex4 : List Char → Option (Nat × List Char)
  | h1 :: h2 :: h3 :: h4 :: rest =>
    match decodeHex4 h1 h2 h3 h4 with
    | some n => some (n, rest)
    | none => none
  | _ => none

/-- Combine a decoded high surrogate with the following `\uNNNN` low
surrogate. -/
def parseLowSurrogate (n : Nat) : List Char → Option (Char × List Char)
  | '\\' :: 'u' :: rest4 =>
    match readHex4 rest4 with
    | some (m, rest5) =>
      if 56320 ≤ m ∧ m < 57344 then
        some (Char.ofNat (65536 + (n - 55296) * 1024 + (m - 56320)), rest5)
      else none
    | none => none
  | _ => none

/-- Decode one escape sequence (the backslash already consumed): the
denoted character and the remaining input. -/
def parseEsc : List Char → Option (Char × List Char)
  | [] => none
  | e :: rest2 =>
    if e = '"' then some ('"', rest2)
    else if e = '\\' then some ('\\', rest2)
    else if e = '/' then some ('/', rest2)
    else if e = 'n' then some ('\n', rest2)
    else if e = 'r' then some ('\r', rest2)
    else if e = 't' then some ('\t', rest2)
    else if e = 'b' then some (Char.ofNat 8, rest2)
    else if e = 'f' then some (Char.ofNat 12, rest2)
    else if e = 'u' then
      match readHex4 rest2 with
      | none => none
      | some (n, rest3) =>
        if 55296 ≤ n ∧ n < 56320 then parseLowSurrogate n rest3
        else if 56320 ≤ n ∧ n < 57344 then none
        else some (Char.ofNat n, rest3)
    else none

/-- Read the remainder of a JSON string literal (the opening quote already
consumed), undoing the escapes of `escChar`; `acc` holds the decoded
characters in reverse.  One unit of fuel is spent per decoded character,
so any fuel above the input length is enough. -/
def parseStrAux : Nat → List Char → List Char → Option (String × List Char)
  | 0, _, _ => none
  | fuel + 1, acc, cs =>
    match cs with
    | [] => none
    | c :: rest =>
      if c = '"' then some (String.mk acc.reverse, rest)
      else if c = '\\' then
        match parseEsc rest with
        | some p => parseStrAux fuel (p.1 :: acc) p.2
        | none => none
      else parseStrAux fuel (c :: acc) rest

/-- Consume an expected literal sequence of characters. -/
def stripPrefixChars : List Char → List Char → Option (List Char)
  | [], cs => some cs
  | p :: ps, c :: cs => if c = p then stripPrefixChars ps cs else none
  | _ :: _, [] => none

/-- Read a negative number (the minus sign already consumed). -/
def parseNumNeg : List Char → Option (Value × List Char)
  | d :: rest2 =>
    if d.isDigit then
      let p := parseDigitsAux (d.toNat - 48) rest2
      some (.vint (-(p.1 : Int)), p.2)
    else none
  | [] => none

mutual

/-- Read one JSON value.  The fuel decreases at each nesting step; any
fuel beyond the structural depth measure `muV` is enough. -/
def parseV : Nat → List Char → Option (Value × List Char)
  | 0, _ => none
  | fuel + 1, cs =>
    match cs with
    | [] => none
    | c :: rest =>
      if c = 'n' then
        (stripPrefixChars ['u', 'l', 'l'] rest).map (fun r2 => (.vnull, r2))
      else if c = 't' then
        (stripPrefixChars ['r', 'u', 'e'] rest).map
          (fun r2 => (.vbool true, r2))
      else if c = 'f' then
        (stripPrefixChars ['a', 'l', 's', 'e'] rest).map
          (fun r2 => (.vbool false, r2))
      else if c = '"' then
        (parseStrAux (rest.length + 1) [] rest).map
          (fun p => (.vstr p.1, p.2))
      else if c = '[' then
        (parseElems fuel rest).map (fun p => (.vlist p.1, p.2))
      else if c = '\x7b' then
        (parseMembers fuel rest).map (fun p => (.vdict p.1, p.2))
      else if c = '-' then parseNumNeg rest
      else if c.isDigit then
        let p := parseDigitsAux (c.toNat - 48) rest
        some (.vint (p.1 : Int), p.2)
      else none

/-- Read the elements of an array, after its opening bracket. -/
def parseElems : Nat → List Char → Option (List Value × List Char)
  | 0, _ => none
  | fuel + 1, cs =>
    match cs with
    | [] => none
    | c :: rest =>
      if c = ']' then some ([], rest)
      else
        match parseV fuel (c :: rest) with
        | none => none
        | some (v, rest2) =>
          match rest2 with
          | ',' :: rest3 =>
            match parseElems fuel rest3 with
            | some (xs, rest4) => some (v :: xs, rest4)
            | none => none
          | ']' :: rest3 => some ([v], rest3)
          | _ => none

/-- Read the members of an object, after its opening brace. -/
def parseMembers : Nat → List Char → Option (List (String × Value) × List Char)
  | 0, _ => none
  | fuel + 1, cs =>
    match cs with
    | [] => none
    | c :: rest =>
      if c = '\x7d' then some ([], rest)
      else if c = '"' then
        match parseStrAux (rest.length + 1) [] rest with
        | none => none
        | some (k, rest2) =>
          match rest2 with
          | ':' :: rest3 =>
            match parseV fuel rest3 with
            | none => none
            | some (v, rest4) =>
              match rest4 with
              | ',' :: rest5 =>
                match parseMembers fuel rest5 with
                | some (kvs, rest6) => some ((k, v) :: kvs, rest6)
                | none => none
              | '\x7d' :: rest5 => some ([(k, v)], rest5)
              | _ => none
          | _ => none
      else none

end

mutual

/-- Fuel sufficient for `parseV` on the encoding of `v`. -/
def muV : Value → Nat
  | .vlist xs => 1 + muE xs
  | .vdict kvs => 1 + muM kvs
  | _ => 1

/-- Fuel sufficient for `parseElems` on the encoded elements. -/
def muE : List Value → Nat
  | [] => 1
  | x :: t => 1 + max (muV x) (muE t)

/-- Fuel sufficient for `parseMembers` on the encoded members. -/
def muM : List (String × Value) → Nat
  | [] => 1
  | (_, v) :: t => 1 + max (muV v) (muM t)

end

/-- Parse a complete JSON document: one value consuming the whole input. -/
def jsonParse (s : String) : Option Value :=
  match parseV (s.data.length + 1) s.data with
  | some (v, []) => some v
  | _ => none

example : jsonParse "\x7b\"a\":1,\"b\":2\x7d"
    = some (.vdict [("a", .vint 1), ("b", .vint 2)]) := by rfl

/-! ## Character facts -/

lemma uint32_le_iff_toNat_le {a b : UInt32} : a ≤ b ↔ a.toNat ≤ b.toNat :=
  Iff.rfl

lemma char_isDigit_iff {c : Char} :
    c.isDigit = true ↔ 48 ≤ c.toNat ∧ c.toNat ≤ 57 := by
  simp [Char.isDigit, Bool.and_eq_true, decide_eq_true_eq, ge_iff_le,
    uint32_le_iff_toNat_le]
  rfl

lemma char_ne_of_toNat_ne {c d : Char} (h : c.toNat ≠ d.toNat) : c ≠ d :=
  fun hc => h (hc ▸ rfl)

lemma char_toNat_lt (c : Char) :
    c.toNat < 55296 ∨ (55295 < c.toNat ∧ c.toNat < 1114112) := by
  have h := c.valid
  have hv : c.toNat = c.val.toNat := rfl
  rcases h with h | h
  · exact Or.inl (hv ▸ h)
  · exact Or.inr ⟨by omega, by omega⟩

/-- A valid character never carries a surrogate code point. -/
lemma char_not_surrogate (c : Char) :
    ¬ (55296 ≤ c.toNat ∧ c.toNat < 57344) := by
  have h := c.valid
  have hv : c.toNat = c.val.toNat := rfl
  rcases h with h | h
  · omega
  · have h1 := h.1
    omega

lemma digitChar_isDigit {k : Nat} (h : k < 10) : (digitChar k).isDigit = true := by
  interval_cases k <;> decide

lemma digitChar_toNat {k : Nat} (h : k < 10) : (digitChar k).toNat = 48 + k := by
  interval_cases k <;> decide

/-! ## Decimal digit strings round-trip -/

lemma natDigitsAux_spec (n : Nat) : ∀ fuel acc, n < fuel →
    natDigitsAux fuel n acc = natDigits n ++ acc := by
  induction n using Nat.strong_induction_on with
  | _ n ih =>
    intro fuel acc hfuel
    obtain ⟨f, rfl⟩ : ∃ f, fuel = f + 1 := ⟨fuel - 1, by omega⟩
    by_cases h10 : n < 10
    · simp [natDigitsAux, natDigits, h10]
    · have hdiv : n / 10 < n := Nat.div_lt_self (by omega) (by omega)
      rw [natDigitsAux, if_neg h10]
      rw [ih (n / 10) hdiv f _ (by omega)]
      conv_rhs => rw [natDigits, natDigitsAux, if_neg h10,
        ih (n / 10) hdiv n _ (by omega)]
      simp

lemma natDigits_eq_append (n : Nat) (h : ¬ n < 10) :
    natDigits n = natDigits (n / 10) ++ [digitChar (n % 10)] := by
  have hdiv : n / 10 < n := Nat.div_lt_self (by omega) (by omega)
  rw [natDigits, natDigitsAux, if_neg h, natDigitsAux_spec _ _ _ (by omega)]

lemma natDigits_all_digit (n : Nat) : ∀ c ∈ natDigits n, c.isDigit = true := by
  induction n using Nat.strong_induction_on with
  | _ n ih =>
    by_cases h10 : n < 10
    · intro c hc
      rw [natDigits, natDigitsAux, if_pos h10] at hc
      simp at hc
      exact hc ▸ digitChar_isDigit (by omega)
    · rw [natDigits_eq_append n h10]
      intro c hc
      rcases List.mem_append.mp hc with hc | hc
      · exact ih (n / 10) (Nat.div_lt_self (by omega) (by omega)) c hc
      · simp at hc
        exact hc ▸ digitChar_isDigit (Nat.mod_lt _ (by omega))

lemma natDigits_ne_nil (n : Nat) : natDigits n ≠ [] := by
  by_cases h10 : n < 10
  · rw [natDigits, natDigitsAux, if_pos h10]
    simp
  · rw [natDigits_eq_append n h10]
    simp

lemma natDigits_foldl (n : Nat) :
    (natDigits n).foldl (fun a c => a * 10 + (c.toNat - 48)) 0 = n := by
  induction n using Nat.strong_induction_on with
  | _ n ih =>
    by_cases h10 : n < 10
    · rw [natDigits, natDigitsAux, if_pos h10]
      simp [digitChar_toNat h10]
    · rw [natDigits_eq_append n h10, List.foldl_append]
      rw [ih (n / 10) (Nat.div_lt_self (by omega) (by omega))]
      simp [digitChar_toNat (Nat.mod_lt n (show 0 < 10 by omega))]
      omega

/-- Tail condition for number parsing: the remainder must not begin with a
digit (in encoded JSON it begins with a separator or closer, or is empty). -/
def noDigit : List Char → Prop
  | [] => True
  | c :: _ => c.isDigit = false

lemma parseDigitsAux_append (ds : List Char) :
    ∀ acc rest, (∀ c ∈ ds, c.isDigit = true) → noDigit rest →
    parseDigitsAux acc (ds ++ rest)
      = (ds.foldl (fun a c => a * 10 + (c.toNat - 48)) acc, rest) := by
  induction ds with
  | nil =>
    intro acc rest _ hrest
    cases rest with
    | nil => simp [parseDigitsAux]
    | cons c r =>
      simp only [noDigit] at hrest
      simp [parseDigitsAux, hrest]
  | cons d ds ih =>
    intro acc rest hds hrest
    have hd : d.isDigit = true := hds d (by simp)
    simp only [List.cons_append, parseDigitsAux, hd, if_pos]
    exact ih _ rest (fun c hc => hds c (by simp [hc])) hrest

/-- Parsing the decimal digits of `n` (first digit already consumed into
the accumulator) recovers `n` and leaves the remainder untouched. -/
lemma natDigits_parse (n : Nat) :
    ∃ c0 ds, natDigits n = c0 :: ds ∧ c0.isDigit = true ∧
      ∀ rest, noDigit rest →
        parseDigitsAux (c0.toNat - 48) (ds ++ rest) = (n, rest) := by
  obtain ⟨c0, ds, hds⟩ : ∃ c0 ds, natDigits n = c0 :: ds := by
    cases h : natDigits n with
    | nil => exact absurd h (natDigits_ne_nil n)
    | cons a l => exact ⟨a, l, rfl⟩
  have hall := natDigits_all_digit n
  rw [hds] at hall
  refine ⟨c0, ds, hds, hall c0 (by simp), fun rest hrest => ?_⟩
  rw [parseDigitsAux_append ds _ rest (fun c hc => hall c (by simp [hc])) hrest]
  have hfold := natDigits_foldl n
  rw [hds] at hfold
  simp only [List.foldl_cons, Nat.zero_mul, Nat.zero_add] at hfold
  rw [hfold]

/-! ## Hexadecimal escapes round-trip -/

lemma hexVal_hexDigit {d : Nat} (h : d < 16) : hexVal (hexDigit d) = some d := by
  interval_cases d <;> decide

lemma decodeHex4_hex4 {n : Nat} (h : n < 65536) :
    decodeHex4 (hexDigit (n / 4096 % 16)) (hexDigit (n / 256 % 16))
      (hexDigit (n / 16 % 16)) (hexDigit (n % 16)) = some n := by
  have e1 := hexVal_hexDigit (show n / 4096 % 16 < 16 by omega)
  have e2 := hexVal_hexDigit (show n / 256 % 16 < 16 by omega)
  have e3 := hexVal_hexDigit (show n / 16 % 16 < 16 by omega)
  have e4 := hexVal_hexDigit (show n % 16 < 16 by omega)
  simp only [decodeHex4, e1, e2, e3, e4, Option.some.injEq]
  omega

/-! ## JSON string escapes round-trip -/

lemma escList_cons (c : Char) (cs : List Char) :
    escList (c :: cs) = escChar c ++ escList cs := by
  simp [escList]

/-- One parser step on a quote: the string ends. -/
lemma parseStrAux_step_quote {fuel : Nat} {acc rest : List Char} :
    parseStrAux (fuel + 1) acc ('"' :: rest)
      = some (String.mk acc.reverse, rest) := by
  conv_lhs => rw [parseStrAux.eq_def]
  simp

/-- One parser step on a backslash: defer to `parseEsc` and push its
result. -/
lemma parseStrAux_step_esc {fuel : Nat} {acc rest rest2 : List Char}
    {ch : Char} (h : parseEsc rest = some (ch, rest2)) :
    parseStrAux (fuel + 1) acc ('\\' :: rest)
      = parseStrAux fuel (ch :: acc) rest2 := by
  conv_lhs => rw [parseStrAux.eq_def]
  simp only [if_neg (show ¬ ('\\' : Char) = '"' from by decide)]
  simp [h]

/-- One parser step on an ordinary character: push it. -/
lemma parseStrAux_step_plain {fuel : Nat} {acc rest : List Char} {c : Char}
    (h1 : c ≠ '"') (h2 : c ≠ '\\') :
    parseStrAux (fuel + 1) acc (c :: rest)
      = parseStrAux fuel (c :: acc) rest := by
  conv_lhs => rw [parseStrAux.eq_def]
  simp only [if_neg h1, if_neg h2]

lemma parseEsc_quote (tail : List Char) :
    parseEsc ('"' :: tail) = some ('"', tail) := by
  conv_lhs => rw [parseEsc.eq_def]
  simp

lemma parseEsc_backslash (tail : List Char) :
    parseEsc ('\\' :: tail) = some ('\\', tail) := by
  conv_lhs => rw [parseEsc.eq_def]
  simp only [if_neg (show ¬ ('\\' : Char) = '"' from by decide)]
  simp

lemma parseEsc_n (tail : List Char) :
    parseEsc ('n' :: tail) = some ('\n', tail) := by
  conv_lhs => rw [parseEsc.eq_def]
  simp only [if_neg (show ¬ ('n' : Char) = '"' from by decide),
    if_neg (show ¬ ('n' : Char) = '\\' from by decide),
    if_neg (show ¬ ('n' : Char) = '/' from by decide)]
  simp

lemma parseEsc_r (tail : List Char) :
    parseEsc ('r' :: tail) = some ('\x0d', tail) := by
  conv_lhs => rw [parseEsc.eq_def]
  simp only [if_neg (show ¬ ('r' : Char) = '"' from by decide),
    if_neg (show ¬ ('r' : Char) = '\\' from by decide),
    if_neg (show ¬ ('r' : Char) = '/' from by decide),
    if_neg (show ¬ ('r' : Char) = 'n' from by decide)]
  simp

lemma parseEsc_t (tail : List Char) :
    parseEsc ('t' :: tail) = some ('\t', tail) := by
  conv_lhs => rw [parseEsc.eq_def]
  simp only [if_neg (show ¬ ('t' : Char) = '"' from by decide),
    if_neg (show ¬ ('t' : Char) = '\\' from by decide),
    if_neg (show ¬ ('t' : Char) = '/' from by decide),
    if_neg (show ¬ ('t' : Char) = 'n' from by decide),
    if_neg (show ¬ ('t' : Char) = 'r' from by decide)]
  simp

lemma parseEsc_b (tail : List Char) :
    parseEsc ('b' :: tail) = some (Char.ofNat 8, tail) := by
  conv_lhs => rw [parseEsc.eq_def]
  simp only [if_neg (show ¬ ('b' : Char) = '"' from by decide),
    if_neg (show ¬ ('b' : Char) = '\\' from by decide),
    if_neg (show ¬ ('b' : Char) = '/' from by decide),
    if_neg (show ¬ ('b' : Char) = 'n' from by decide),
    if_neg (show ¬ ('b' : Char) = 'r' from by decide),
    if_neg (show ¬ ('b' : Char) = 't' from by decide)]
  simp

lemma parseEsc_f (tail : List Char) :
    parseEsc ('f' :: tail) = some (Char.ofNat 12, tail) := by
  conv_lhs => rw [parseEsc.eq_def]
  simp only [if_neg (show ¬ ('f' : Char) = '"' from by decide),
    if_neg (show ¬ ('f' : Char) = '\\' from by decide),
    if_neg (show ¬ ('f' : Char) = '/' from by decide),
    if_neg (show ¬ ('f' : Char) = 'n' from by decide),
    if_neg (show ¬ ('f' : Char) = 'r' from by decide),
    if_neg (show ¬ ('f' : Char) = 't' from by decide),
    if_neg (show ¬ ('f' : Char) = 'b' from by decide)]
  simp

lemma readHex4_hex4 {n : Nat} (h : n < 65536) (tail : List Char) :
    readHex4 (hex4 n ++ tail) = some (n, tail) := by
  rw [hex4]
  show readHex4 (hexDigit _ :: hexDigit _ :: hexDigit _ :: hexDigit _
    :: tail) = _
  simp [readHex4, decodeHex4_hex4 h]

/-- Reading a `\u` escape dispatches on the four hex digits that follow. -/
lemma parseEsc_u (rest2 : List Char) :
    parseEsc ('u' :: rest2) = (match readHex4 rest2 with
      | none => none
      | some (n, rest3) =>
        if 55296 ≤ n ∧ n < 56320 then parseLowSurrogate n rest3
        else if 56320 ≤ n ∧ n < 57344 then none
        else some (Char.ofNat n, rest3)) := by
  conv_lhs => rw [parseEsc.eq_def]
  simp

/-- Decoding a single `\uNNNN` escape of a non-surrogate code point. -/
lemma parseEsc_u_single {c : Char} (h9 : c.toNat < 65536) (tail : List Char) :
    parseEsc ('u' :: hex4 c.toNat ++ tail) = some (c, tail) := by
  have hs := char_not_surrogate c
  have hn1 : ¬ (55296 ≤ c.toNat ∧ c.toNat < 56320) := by omega
  have hn2 : ¬ (56320 ≤ c.toNat ∧ c.toNat < 57344) := by omega
  rw [show ('u' :: hex4 c.toNat ++ tail) = 'u' :: (hex4 c.toNat ++ tail)
    from rfl]
  rw [parseEsc_u, readHex4_hex4 h9]
  simp [hn1, hn2, Char.ofNat_toNat]

lemma parseLowSurrogate_hex4 {c : Char} (h9 : 65536 ≤ c.toNat)
    (hhi : c.toNat < 1114112) (tail : List Char) :
    parseLowSurrogate (55296 + (c.toNat - 65536) / 1024)
        ('\\' :: 'u' :: (hex4 (56320 + (c.toNat - 65536) % 1024) ++ tail))
      = some (c, tail) := by
  have hp : 56320 ≤ 56320 + (c.toNat - 65536) % 1024 ∧
      56320 + (c.toNat - 65536) % 1024 < 57344 := ⟨by omega, by omega⟩
  have harith : 65536 + (55296 + (c.toNat - 65536) / 1024 - 55296) * 1024 +
      (56320 + (c.toNat - 65536) % 1024 - 56320) = c.toNat := by
    have := Nat.div_add_mod (c.toNat - 65536) 1024
    omega
  conv_lhs => rw [parseLowSurrogate.eq_def]
  simp [readHex4_hex4
      (show 56320 + (c.toNat - 65536) % 1024 < 65536 from by omega),
    hp, harith, Char.ofNat_toNat]
  rw [show 65536 + (c.toNat - 65536) / 1024 * 1024 + (c.toNat - 65536) % 1024
      = c.toNat from by omega, Char.ofNat_toNat]

/-- Decoding a surrogate pair for a code point above `U+FFFF`. -/
lemma parseEsc_u_pair {c : Char} (h9 : 65536 ≤ c.toNat) (tail : List Char) :
    parseEsc ('u' :: hex4 (55296 + (c.toNat - 65536) / 1024) ++
        ('\\' :: 'u' :: hex4 (56320 + (c.toNat - 65536) % 1024) ++ tail))
      = some (c, tail) := by
  have hhi : c.toNat < 1114112 := by
    rcases char_toNat_lt c with h | h
    · omega
    · exact h.2
  have hp : 55296 ≤ 55296 + (c.toNat - 65536) / 1024 ∧
      55296 + (c.toNat - 65536) / 1024 < 56320 := ⟨by omega, by omega⟩
  rw [show ('u' :: hex4 (55296 + (c.toNat - 65536) / 1024) ++
      ('\\' :: 'u' :: hex4 (56320 + (c.toNat - 65536) % 1024) ++ tail))
      = 'u' :: (hex4 (55296 + (c.toNat - 65536) / 1024) ++
      ('\\' :: 'u' :: (hex4 (56320 + (c.toNat - 65536) % 1024) ++ tail)))
      from by simp]
  rw [parseEsc_u, readHex4_hex4
    (show 55296 + (c.toNat - 65536) / 1024 < 65536 from by omega)]
  simp only [hp, and_self, if_pos]
  exact parseLowSurrogate_hex4 h9 hhi tail

/-- Consuming one escaped character: whatever follows, the reader undoes
`escChar`, pushes exactly the original character and spends one unit of
fuel. -/
lemma parseStrAux_escChar (c : Char) (fuel : Nat) (acc tail : List Char) :
    parseStrAux (fuel + 1) acc (escChar c ++ tail)
      = parseStrAux fuel (c :: acc) tail := by
  by_cases h1 : c = '"'
  · subst h1
    rw [show escChar '"' = ['\\', '"'] from by decide]
    exact parseStrAux_step_esc (parseEsc_quote tail)
  by_cases h2 : c = '\\'
  · subst h2
    rw [show escChar '\\' = ['\\', '\\'] from by decide]
    exact parseStrAux_step_esc (parseEsc_backslash tail)
  by_cases h3 : c = '\n'
  · subst h3
    rw [show escChar '\n' = ['\\', 'n'] from by decide]
    exact parseStrAux_step_esc (parseEsc_n tail)
  by_cases h4 : c = '\r'
  · subst h4
    rw [show escChar '\x0d' = ['\\', 'r'] from by decide]
    exact parseStrAux_step_esc (parseEsc_r tail)
  by_cases h5 : c = '\t'
  · subst h5
    rw [show escChar '\t' = ['\\', 't'] from by decide]
    exact parseStrAux_step_esc (parseEsc_t tail)
  by_cases h6 : c.toNat = 8
  · have hc : c = Char.ofNat 8 := by
      rw [← h6, Char.ofNat_toNat]
    rw [escChar, if_neg h1, if_neg h2, if_neg h3, if_neg h4, if_neg h5,
      if_pos h6, hc]
    exact parseStrAux_step_esc (parseEsc_b tail)
  by_cases h7 : c.toNat = 12
  · have hc : c = Char.ofNat 12 := by
      rw [← h7, Char.ofNat_toNat]
    rw [escChar, if_neg h1, if_neg h2, if_neg h3, if_neg h4, if_neg h5,
      if_neg h6, if_pos h7, hc]
    exact parseStrAux_step_esc (parseEsc_f tail)
  by_cases h8 : 32 ≤ c.toNat ∧ c.toNat ≤ 126
  · rw [escChar, if_neg h1, if_neg h2, if_neg h3, if_neg h4, if_neg h5,
      if_neg h6, if_neg h7, if_pos h8]
    exact parseStrAux_step_plain h1 h2
  by_cases h9 : c.toNat < 65536
  · rw [escChar, if_neg h1, if_neg h2, if_neg h3, if_neg h4, if_neg h5,
      if_neg h6, if_neg h7, if_neg h8, if_pos h9]
    show parseStrAux (fuel + 1) acc ('\\' :: ('u' :: hex4 c.toNat ++ tail)) = _
    exact parseStrAux_step_esc (parseEsc_u_single h9 tail)
  · rw [escChar, if_neg h1, if_neg h2, if_neg h3, if_neg h4, if_neg h5,
      if_neg h6, if_neg h7, if_neg h8, if_neg h9]
    show parseStrAux (fuel + 1) acc ('\\' :: ('u' ::
      hex4 (55296 + (c.toNat - 65536) / 1024) ++ ('\\' :: 'u' ::
      hex4 (56320 + (c.toNat - 65536) % 1024) ++ tail))) = _
    exact parseStrAux_step_esc (parseEsc_u_pair (by omega) tail)

/-- Reading back an escaped string: the reader stops at the closing quote
and returns exactly the original characters. -/
lemma parseStrAux_escList (cl : List Char) : ∀ fuel acc rest, cl.length < fuel →
    parseStrAux fuel acc (escList cl ++ '"' :: rest)
      = some (String.mk (acc.reverse ++ cl), rest) := by
  induction cl with
  | nil =>
    intro fuel acc rest hfuel
    obtain ⟨f, rfl⟩ : ∃ f, fuel = f + 1 := ⟨fuel - 1, by omega⟩
    show parseStrAux (f + 1) acc ('"' :: rest) = _
    conv_lhs => rw [parseStrAux.eq_def]
    simp only [if_pos (rfl : ('"' : Char) = '"')]
    simp
  | cons c cl ih =>
    intro fuel acc rest hfuel
    obtain ⟨f, rfl⟩ : ∃ f, fuel = f + 1 := ⟨fuel - 1, by omega⟩
    rw [escList_cons, List.append_assoc, parseStrAux_escChar,
      ih f _ rest (by simpa using hfuel)]
    simp

/-! ## Shape facts about the encoder output -/

lemma escChar_length_pos (c : Char) : 0 < (escChar c).length := by
  rw [escChar]
  split_ifs <;> simp [hex4]

lemma escList_length (cl : List Char) : cl.length ≤ (escList cl).length := by
  induction cl with
  | nil => simp [escList]
  | cons c cl ih =>
    rw [escList_cons, List.length_append, List.length_cons]
    have := escChar_length_pos c
    omega

/-- The first character a value's encoding can start with. -/
def headOk (c : Char) : Prop :=
  c = 'n' ∨ c = 't' ∨ c = 'f' ∨ c = '"' ∨ c = '[' ∨ c = '\x7b' ∨ c = '-' ∨
    c.isDigit = true

lemma dumpsV_head (v : Value) :
    ∃ c cs, dumpsV v = c :: cs ∧ headOk c := by
  cases v with
  | vnull => exact ⟨'n', _, by rw [dumpsV], Or.inl rfl⟩
  | vbool b =>
    cases b
    · exact ⟨'f', _, by rw [dumpsV], by right; right; left; rfl⟩
    · exact ⟨'t', _, by rw [dumpsV], by right; left; rfl⟩
  | vint n =>
    by_cases hn : n < 0
    · exact ⟨'-', _, by rw [dumpsV, intStr, if_pos hn], by
        right; right; right; right; right; right; left; rfl⟩
    · obtain ⟨c0, ds, hds, hdig, _⟩ := natDigits_parse n.natAbs
      exact ⟨c0, ds, by rw [dumpsV, intStr, if_neg hn, hds], Or.inr (Or.inr
        (Or.inr (Or.inr (Or.inr (Or.inr (Or.inr hdig))))))⟩
  | vstr s =>
    exact ⟨'"', escList s.data ++ ['"'], by rw [dumpsV]; simp, by
      right; right; right; left; rfl⟩
  | vlist xs =>
    exact ⟨'[', dumpsElems xs ++ [']'], by rw [dumpsV]; simp, by
      right; right; right; right; left; rfl⟩
  | vdict kvs =>
    exact ⟨'\x7b', dumpsMembers kvs ++ ['\x7d'], by rw [dumpsV]; simp, by
      right; right; right; right; right; left; rfl⟩

lemma headOk_ne_closers {c : Char} (h : headOk c) :
    c ≠ ']' ∧ c ≠ '\x7d' := by
  have h93 : (']' : Char).toNat = 93 := by decide
  have h125 : ('\x7d' : Char).toNat = 125 := by decide
  rcases h with rfl | rfl | rfl | rfl | rfl | rfl | rfl | hd
  · exact ⟨by decide, by decide⟩
  · exact ⟨by decide, by decide⟩
  · exact ⟨by decide, by decide⟩
  · exact ⟨by decide, by decide⟩
  · exact ⟨by decide, by decide⟩
  · exact ⟨by decide, by decide⟩
  · exact ⟨by decide, by decide⟩
  · have hb := char_isDigit_iff.mp hd
    exact ⟨char_ne_of_toNat_ne (by omega), char_ne_of_toNat_ne (by omega)⟩

lemma digit_ne_keys {c : Char} (h : c.isDigit = true) :
    c ≠ 'n' ∧ c ≠ 't' ∧ c ≠ 'f' ∧ c ≠ '"' ∧ c ≠ '[' ∧ c ≠ '\x7b' ∧
      c ≠ '-' := by
  have hb := char_isDigit_iff.mp h
  have k1 : ('n' : Char).toNat = 110 := by decide
  have k2 : ('t' : Char).toNat = 116 := by decide
  have k3 : ('f' : Char).toNat = 102 := by decide
  have k4 : ('"' : Char).toNat = 34 := by decide
  have k5 : ('[' : Char).toNat = 91 := by decide
  have k6 : ('\x7b' : Char).toNat = 123 := by decide
  have k7 : ('-' : Char).toNat = 45 := by decide
  exact ⟨char_ne_of_toNat_ne (by omega), char_ne_of_toNat_ne (by omega),
    char_ne_of_toNat_ne (by omega), char_ne_of_toNat_ne (by omega),
    char_ne_of_toNat_ne (by omega), char_ne_of_toNat_ne (by omega),
    char_ne_of_toNat_ne (by omega)⟩

/-! ## Value round-trip -/

lemma muV_pos (v : Value) : 1 ≤ muV v := by
  cases v <;> simp [muV]

lemma muE_pos (xs : List Value) : 1 ≤ muE xs := by
  cases xs <;> simp [muE]

lemma muM_pos (kvs : List (String × Value)) : 1 ≤ muM kvs := by
  cases kvs with
  | nil => simp [muM]
  | cons kv t =>
    obtain ⟨k, v⟩ := kv
    simp [muM]

lemma noDigit_cons {c : Char} {rest : List Char} (h : c.isDigit = false) :
    noDigit (c :: rest) := h

lemma stripPrefixChars_append (ps : List Char) : ∀ tail,
    stripPrefixChars ps (ps ++ tail) = some tail := by
  induction ps with
  | nil => intro tail; simp [stripPrefixChars]
  | cons p ps ih =>
    intro tail
    rw [List.cons_append, stripPrefixChars, if_pos rfl, ih]

lemma dumpsElems_nil : dumpsElems [] = [] := rfl

lemma dumpsElems_single (x : Value) : dumpsElems [x] = dumpsV x := rfl

lemma dumpsElems_cons (x y : Value) (t : List Value) :
    dumpsElems (x :: y :: t) = dumpsV x ++ ',' :: dumpsElems (y :: t) := rfl

lemma dumpsMembers_nil : dumpsMembers [] = [] := rfl

lemma dumpsMembers_single (k : String) (v : Value) :
    dumpsMembers [(k, v)] = '"' :: escList k.data ++ '"' :: ':' :: dumpsV v :=
  rfl

lemma dumpsMembers_cons (k : String) (v : Value) (kv : String × Value)
    (t : List (String × Value)) :
    dumpsMembers ((k, v) :: kv :: t)
      = ('"' :: escList k.data ++ '"' :: ':' :: dumpsV v)
        ++ ',' :: dumpsMembers (kv :: t) := rfl

/-- Reading back the encoded elements of an array, given the round-trip
property of each element. -/
lemma parseElems_dumps {xs : List Value}
    (IH : ∀ x ∈ xs, ∀ fuel rest, muV x ≤ fuel → noDigit rest →
      parseV fuel (dumpsV x ++ rest) = some (x, rest)) :
    ∀ fuel rest, muE xs ≤ fuel →
      parseElems fuel (dumpsElems xs ++ ']' :: rest) = some (xs, rest) := by
  induction xs with
  | nil =>
    intro fuel rest h
    obtain ⟨f, rfl⟩ : ∃ f, fuel = f + 1 := ⟨fuel - 1, by
      have := muE_pos ([] : List Value)
      omega⟩
    rw [dumpsElems_nil, List.nil_append]
    conv_lhs => rw [parseElems.eq_def]
    simp
  | cons x t ih =>
    intro fuel rest h
    rw [muE] at h
    obtain ⟨f, rfl⟩ : ∃ f, fuel = f + 1 := ⟨fuel - 1, by omega⟩
    have hmux : muV x ≤ f := by omega
    have hmut : muE t ≤ f := by omega
    obtain ⟨c, cs, hdx, hok⟩ := dumpsV_head x
    have hne := headOk_ne_closers hok
    cases t with
    | nil =>
      have hshape : dumpsElems [x] ++ ']' :: rest
          = c :: (cs ++ ']' :: rest) := by
        rw [dumpsElems_single, hdx, List.cons_append]
      rw [hshape]
      conv_lhs => rw [parseElems.eq_def]
      simp only [if_neg hne.1]
      rw [show c :: (cs ++ ']' :: rest) = dumpsV x ++ ']' :: rest from by
        rw [hdx, List.cons_append]]
      rw [IH x (by simp) f _ hmux (noDigit_cons (by decide))]
      simp
    | cons t0 t1 =>
      have hshape : dumpsElems (x :: t0 :: t1) ++ ']' :: rest
          = c :: (cs ++ (',' :: (dumpsElems (t0 :: t1) ++ ']' :: rest))) := by
        rw [dumpsElems_cons, hdx]
        simp
      rw [hshape]
      conv_lhs => rw [parseElems.eq_def]
      simp only [if_neg hne.1]
      rw [show c :: (cs ++ (',' :: (dumpsElems (t0 :: t1) ++ ']' :: rest)))
          = dumpsV x ++ ',' :: (dumpsElems (t0 :: t1) ++ ']' :: rest) from by
        rw [hdx]
        simp]
      rw [IH x (by simp) f _ hmux (noDigit_cons (by decide))]
      have ihr := ih (fun y hy => IH y (by simp [hy])) f rest hmut
      simp [ihr]

/-- Reading back the encoded members of an object, given the round-trip
property of each member's value. -/
lemma parseMembers_dumps {kvs : List (String × Value)}
    (IH : ∀ kv ∈ kvs, ∀ fuel rest, muV kv.2 ≤ fuel → noDigit rest →
      parseV fuel (dumpsV kv.2 ++ rest) = some (kv.2, rest)) :
    ∀ fuel rest, muM kvs ≤ fuel →
      parseMembers fuel (dumpsMembers kvs ++ '\x7d' :: rest)
        = some (kvs, rest) := by
  induction kvs with
  | nil =>
    intro fuel rest h
    obtain ⟨f, rfl⟩ : ∃ f, fuel = f + 1 := ⟨fuel - 1, by
      have := muM_pos ([] : List (String × Value))
      omega⟩
    rw [dumpsMembers_nil, List.nil_append]
    conv_lhs => rw [parseMembers.eq_def]
    simp
  | cons kv t ih =>
    obtain ⟨k, v⟩ := kv
    intro fuel rest h
    rw [muM] at h
    obtain ⟨f, rfl⟩ : ∃ f, fuel = f + 1 := ⟨fuel - 1, by omega⟩
    have hmuv : muV v ≤ f := by omega
    have hmut : muM t ≤ f := by omega
    cases t with
    | nil =>
      have hshape : dumpsMembers [(k, v)] ++ '\x7d' :: rest
          = '"' :: (escList k.data
            ++ '"' :: (':' :: (dumpsV v ++ '\x7d' :: rest))) := by
        rw [dumpsMembers_single]
        simp
      rw [hshape]
      conv_lhs => rw [parseMembers.eq_def]
      simp only [if_neg (show ¬ ('"' : Char) = '\x7d' from by decide),
        if_pos (rfl : ('"' : Char) = '"')]
      rw [parseStrAux_escList k.data _ [] _ (by
        have := escList_length k.data
        simp only [List.length_append, List.length_cons]
        omega)]
      simp only [List.reverse_nil, List.nil_append]
      rw [show String.mk k.data = k from rfl]
      rw [IH (k, v) (by simp) f _ hmuv (noDigit_cons (by decide))]
      simp
    | cons t0 t1 =>
      have hshape : dumpsMembers ((k, v) :: t0 :: t1) ++ '\x7d' :: rest
          = '"' :: (escList k.data ++ '"' :: (':' :: (dumpsV v
            ++ ',' :: (dumpsMembers (t0 :: t1) ++ '\x7d' :: rest)))) := by
        rw [dumpsMembers_cons]
        simp
      rw [hshape]
      conv_lhs => rw [parseMembers.eq_def]
      simp only [if_neg (show ¬ ('"' : Char) = '\x7d' from by decide),
        if_pos (rfl : ('"' : Char) = '"')]
      rw [parseStrAux_escList k.data _ [] _ (by
        have := escList_length k.data
        simp only [List.length_append, List.length_cons]
        omega)]
      simp only [List.reverse_nil, List.nil_append]
      rw [show String.mk k.data = k from rfl]
      rw [IH (k, v) (by simp) f _ hmuv (noDigit_cons (by decide))]
      have ihr := ih (fun y hy => IH y (by simp [hy])) f rest hmut
      simp [ihr]

lemma sizeOf_pos_value (v : Value) : 1 ≤ sizeOf v := by
  cases v <;> simp

set_option maxHeartbeats 1000000 in
/-- Round-trip of one encoded value: with fuel at least `muV v` and a
remainder that does not begin with a digit, the reader returns exactly
`v` and the untouched remainder. -/
lemma parseV_dumps_aux : ∀ (N : Nat) (v : Value), sizeOf v ≤ N →
    ∀ fuel rest, muV v ≤ fuel → noDigit rest →
      parseV fuel (dumpsV v ++ rest) = some (v, rest) := by
  intro N
  induction N with
  | zero =>
    intro v hv
    have := sizeOf_pos_value v
    omega
  | succ N ihN =>
    intro v hv fuel rest hmu hrest
    obtain ⟨f, rfl⟩ : ∃ f, fuel = f + 1 := ⟨fuel - 1, by
      have := muV_pos v
      omega⟩
    cases v with
    | vnull =>
      rw [show dumpsV .vnull ++ rest = 'n' :: (['u', 'l', 'l'] ++ rest)
        from rfl]
      conv_lhs => rw [parseV.eq_def]
      simp only [if_pos (rfl : ('n' : Char) = 'n'), if_true, stripPrefixChars_append,
        Option.map_some']
    | vbool b =>
      cases b
      · rw [show dumpsV (.vbool false) ++ rest
          = 'f' :: (['a', 'l', 's', 'e'] ++ rest) from rfl]
        conv_lhs => rw [parseV.eq_def]
        simp only [if_neg (show ¬ ('f' : Char) = 'n' from by decide),
          if_neg (show ¬ ('f' : Char) = 't' from by decide),
          if_pos (rfl : ('f' : Char) = 'f'), if_true, stripPrefixChars_append,
          Option.map_some']
      · rw [show dumpsV (.vbool true) ++ rest
          = 't' :: (['r', 'u', 'e'] ++ rest) from rfl]
        conv_lhs => rw [parseV.eq_def]
        simp only [if_neg (show ¬ ('t' : Char) = 'n' from by decide),
          if_pos (rfl : ('t' : Char) = 't'), if_true, stripPrefixChars_append,
          Option.map_some']
    | vint n =>
      obtain ⟨c0, ds, hds, hdig, hparse⟩ := natDigits_parse n.natAbs
      have hkeys := digit_ne_keys hdig
      by_cases hn : n < 0
      · have hshape : dumpsV (.vint n) ++ rest
            = '-' :: (c0 :: ds ++ rest) := by
          rw [show dumpsV (.vint n) = intStr n from rfl, intStr, if_pos hn,
            hds]
          simp
        rw [hshape]
        conv_lhs => rw [parseV.eq_def]
        simp only [if_neg (show ¬ ('-' : Char) = 'n' from by decide),
          if_neg (show ¬ ('-' : Char) = 't' from by decide),
          if_neg (show ¬ ('-' : Char) = 'f' from by decide),
          if_neg (show ¬ ('-' : Char) = '"' from by decide),
          if_neg (show ¬ ('-' : Char) = '[' from by decide),
          if_neg (show ¬ ('-' : Char) = '\x7b' from by decide),
          if_pos (rfl : ('-' : Char) = '-'), if_true]
        rw [show (c0 :: ds ++ rest : List Char) = c0 :: (ds ++ rest) from by
          simp]
        rw [parseNumNeg, if_pos hdig]
        simp only [hparse rest hrest, Option.some.injEq, Prod.mk.injEq,
          and_true]
        rw [show -((n.natAbs : Nat) : Int) = n from by omega]
      · have hshape : dumpsV (.vint n) ++ rest = c0 :: (ds ++ rest) := by
          rw [show dumpsV (.vint n) = intStr n from rfl, intStr, if_neg hn,
            hds]
          simp
        rw [hshape]
        conv_lhs => rw [parseV.eq_def]
        simp only [if_neg hkeys.1, if_neg hkeys.2.1, if_neg hkeys.2.2.1,
          if_neg hkeys.2.2.2.1, if_neg hkeys.2.2.2.2.1,
          if_neg hkeys.2.2.2.2.2.1, if_neg hkeys.2.2.2.2.2.2, hdig, if_true]
        simp only [hparse rest hrest, Option.some.injEq, Prod.mk.injEq,
          and_true]
        rw [show ((n.natAbs : Nat) : Int) = n from by omega]
    | vstr s =>
      have hshape : dumpsV (.vstr s) ++ rest
          = '"' :: (escList s.data ++ '"' :: rest) := by
        rw [show dumpsV (.vstr s) = '"' :: escList s.data ++ ['"'] from rfl]
        simp
      rw [hshape]
      conv_lhs => rw [parseV.eq_def]
      simp only [if_neg (show ¬ ('"' : Char) = 'n' from by decide),
        if_neg (show ¬ ('"' : Char) = 't' from by decide),
        if_neg (show ¬ ('"' : Char) = 'f' from by decide),
        if_pos (rfl : ('"' : Char) = '"'), if_true]
      rw [parseStrAux_escList s.data _ [] _ (by
        have := escList_length s.data
        simp only [List.length_append, List.length_cons]
        omega)]
      simp only [Option.map_some', List.reverse_nil, List.nil_append]
    | vlist xs =>
      have hszx : ∀ x ∈ xs, sizeOf x ≤ N := by
        intro x hx
        have h1 := List.sizeOf_lt_of_mem hx
        have h2 : sizeOf (Value.vlist xs) = 1 + sizeOf xs := by simp
        omega
      have hshape : dumpsV (.vlist xs) ++ rest
          = '[' :: (dumpsElems xs ++ ']' :: rest) := by
        rw [show dumpsV (.vlist xs) = '[' :: dumpsElems xs ++ [']'] from rfl]
        simp
      rw [hshape]
      conv_lhs => rw [parseV.eq_def]
      simp only [if_neg (show ¬ ('[' : Char) = 'n' from by decide),
        if_neg (show ¬ ('[' : Char) = 't' from by decide),
        if_neg (show ¬ ('[' : Char) = 'f' from by decide),
        if_neg (show ¬ ('[' : Char) = '"' from by decide),
        if_pos (rfl : ('[' : Char) = '['), if_true]
      rw [parseElems_dumps (fun x hx => ihN x (hszx x hx)) f rest (by
        rw [muV] at hmu
        omega)]
      simp
    | vdict kvs =>
      have hszv : ∀ kv ∈ kvs, sizeOf kv.2 ≤ N := by
        intro kv hkv
        have h1 := List.sizeOf_lt_of_mem hkv
        have h2 : sizeOf (Value.vdict kvs) = 1 + sizeOf kvs := by simp
        obtain ⟨k, v⟩ := kv
        have h3 : sizeOf ((k, v) : String × Value) = 1 + sizeOf k + sizeOf v :=
          by simp
        simp only [] at h1 ⊢
        omega
      have hshape : dumpsV (.vdict kvs) ++ rest
          = '\x7b' :: (dumpsMembers kvs ++ '\x7d' :: rest) := by
        rw [show dumpsV (.vdict kvs)
          = '\x7b' :: dumpsMembers kvs ++ ['\x7d'] from rfl]
        simp
      rw [hshape]
      conv_lhs => rw [parseV.eq_def]
      simp only [if_neg (show ¬ ('\x7b' : Char) = 'n' from by decide),
        if_neg (show ¬ ('\x7b' : Char) = 't' from by decide),
        if_neg (show ¬ ('\x7b' : Char) = 'f' from by decide),
        if_neg (show ¬ ('\x7b' : Char) = '"' from by decide),
        if_neg (show ¬ ('\x7b' : Char) = '[' from by decide),
        if_pos (rfl : ('\x7b' : Char) = '\x7b'), if_true]
      rw [parseMembers_dumps (fun kv hkv => ihN kv.2 (hszv kv hkv)) f rest (by
        rw [muV] at hmu
        omega)]
      simp

/-- Round-trip of one encoded value. -/
lemma parseV_dumps (v : Value) (fuel : Nat) (rest : List Char)
    (hmu : muV v ≤ fuel) (hrest : noDigit rest) :
    parseV fuel (dumpsV v ++ rest) = some (v, rest) :=
  parseV_dumps_aux (sizeOf v) v le_rfl fuel rest hmu hrest

/-! ## Fuel bound: the input length plus one always suffices -/

lemma muE_le {xs : List Value}
    (IH : ∀ x ∈ xs, muV x ≤ (dumpsV x).length + 1) :
    muE xs ≤ (dumpsElems xs).length + 2 := by
  induction xs with
  | nil => simp [muE, dumpsElems_nil]
  | cons x t ih =>
    have hx := IH x (by simp)
    have ht := ih (fun y hy => IH y (by simp [hy]))
    rw [muE]
    cases t with
    | nil =>
      rw [dumpsElems_single]
      have h1 := muE_pos ([] : List Value)
      rw [show muE ([] : List Value) = 1 from by rw [muE]]
      omega
    | cons t0 t1 =>
      rw [dumpsElems_cons, List.length_append, List.length_cons]
      omega

lemma muM_le {kvs : List (String × Value)}
    (IH : ∀ kv ∈ kvs, muV kv.2 ≤ (dumpsV kv.2).length + 1) :
    muM kvs ≤ (dumpsMembers kvs).length + 2 := by
  induction kvs with
  | nil => simp [muM, dumpsMembers_nil]
  | cons kv t ih =>
    obtain ⟨k, v⟩ := kv
    have hx : muV v ≤ (dumpsV v).length + 1 := IH (k, v) (by simp)
    have ht := ih (fun y hy => IH y (by simp [hy]))
    rw [muM]
    cases t with
    | nil =>
      rw [dumpsMembers_single]
      rw [show muM ([] : List (String × Value)) = 1 from by rw [muM]]
      simp only [List.cons_append, List.length_cons, List.length_append]
      omega
    | cons t0 t1 =>
      rw [dumpsMembers_cons, List.length_append, List.length_cons]
      simp only [List.cons_append, List.length_cons, List.length_append]
      omega

lemma muV_le_aux : ∀ (N : Nat) (v : Value), sizeOf v ≤ N →
    muV v ≤ (dumpsV v).length + 1 := by
  intro N
  induction N with
  | zero =>
    intro v hv
    have := sizeOf_pos_value v
    omega
  | succ N ihN =>
    intro v hv
    cases v with
    | vnull => simp [muV]
    | vbool b => cases b <;> simp [muV]
    | vint n => simp [muV]
    | vstr s => simp [muV]
    | vlist xs =>
      have hszx : ∀ x ∈ xs, sizeOf x ≤ N := by
        intro x hx
        have h1 := List.sizeOf_lt_of_mem hx
        have h2 : sizeOf (Value.vlist xs) = 1 + sizeOf xs := by simp
        omega
      have hE := muE_le (fun x hx => ihN x (hszx x hx))
      rw [show muV (.vlist xs) = 1 + muE xs from by rw [muV]]
      rw [show dumpsV (.vlist xs) = '[' :: dumpsElems xs ++ [']'] from rfl]
      simp only [List.cons_append, List.length_cons, List.length_append,
        List.length_singleton]
      omega
    | vdict kvs =>
      have hszv : ∀ kv ∈ kvs, sizeOf kv.2 ≤ N := by
        intro kv hkv
        have h1 := List.sizeOf_lt_of_mem hkv
        have h2 : sizeOf (Value.vdict kvs) = 1 + sizeOf kvs := by simp
        obtain ⟨k, v⟩ := kv
        have h3 : sizeOf ((k, v) : String × Value) = 1 + sizeOf k + sizeOf v :=
          by simp
        simp only [] at h1 ⊢
        omega
      have hM := muM_le (fun kv hkv => ihN kv.2 (hszv kv hkv))
      rw [show muV (.vdict kvs) = 1 + muM kvs from by rw [muV]]
      rw [show dumpsV (.vdict kvs) = '\x7b' :: dumpsMembers kvs ++ ['\x7d']
        from rfl]
      simp only [List.cons_append, List.length_cons, List.length_append,
        List.length_singleton]
      omega

lemma muV_le (v : Value) : muV v ≤ (dumpsV v).length + 1 :=
  muV_le_aux (sizeOf v) v le_rfl

/-- The decoder is a left inverse of `json.dumps` on every record value:
the spec's "parseable back to an equivalent mapping". -/
theorem jsonParse_jsonDumps (v : Value) : jsonParse (jsonDumps v) = some v := by
  rw [jsonParse, jsonDumps]
  rw [show (String.mk (dumpsV v)).data = dumpsV v from rfl]
  have h := parseV_dumps v ((dumpsV v).length + 1) [] (muV_le v)
    (show noDigit [] from trivial)
  rw [show dumpsV v ++ ([] : List Char) = dumpsV v from by simp] at h
  rw [h]

/-! ## Facts about the flattening loop -/

/-- Whether a value is a plain string. -/
def Value.isVStr : Value → Bool
  | .vstr _ => true
  | _ => false

lemma flattenValue_not_list_dict (v : Value) :
    (flattenValue v).isVList = false ∧ (flattenValue v).isVDict = false := by
  cases v <;> simp [flattenValue, Value.isVList, Value.isVDict]

lemma flattenValue_eq_self_iff (v : Value) :
    flattenValue v = v ↔ v.isVList = false ∧ v.isVDict = false := by
  cases v <;> simp [flattenValue, Value.isVList, Value.isVDict]

lemma list_map_eq_self {α : Type} {f : α → α} {l : List α} :
    l.map f = l ↔ ∀ a ∈ l, f a = a := by
  induction l with
  | nil => simp
  | cons a t ih => simp [ih]

/-! ## Claim theorems: the Flattener (C3, C4, C7, C8) -/

/-- C3 counterexample: the claim "every value of the FlatRow produced by
the Flattener is a plain string" is false on the code: flattening leaves
scalar values untouched, so a record with the integer field `id = 7`
flattens to a row whose value is still the integer `7`, not a string. -/
theorem claim_C3_cex :
    flattenRow [("id", Value.vint 7)] = [("id", Value.vint 7)] ∧
      (Value.vint 7).isVStr = false :=
  ⟨rfl, rfl⟩

/-- C3 (amended): every value of the FlatRow is the image of the original
field value under the flattening rule — lists become pipe-joined strings
and nested mappings become their compact JSON strings, while scalar values
pass through unchanged; in particular no list or nested-mapping value
remains in the output row. -/
theorem claim_C3 (r : Record) (k : String) (v : Value)
    (h : (k, v) ∈ flattenRow r) :
    v.isVList = false ∧ v.isVDict = false ∧
      ∃ v0, (k, v0) ∈ r ∧ v = flattenValue v0 := by
  obtain ⟨⟨k0, v0⟩, hmem, heq⟩ := List.mem_map.mp h
  simp only [Prod.mk.injEq] at heq
  obtain ⟨hk, hv⟩ := heq
  subst hk
  subst hv
  exact ⟨(flattenValue_not_list_dict v0).1, (flattenValue_not_list_dict v0).2,
    v0, hmem, rfl⟩

/-- Witness for C3 at the record `[x ↦ [1]]`: the flattened value
`"1"` is neither a list nor a dict and is the image of the original. -/
theorem claim_C3_witness :
    (Value.vstr "1").isVList = false ∧ (Value.vstr "1").isVDict = false ∧
      ∃ v0, ("x", v0) ∈ [("x", Value.vlist [Value.vint 1])] ∧
        Value.vstr "1" = flattenValue v0 :=
  claim_C3 [("x", Value.vlist [Value.vint 1])] "x" (Value.vstr "1")
    (List.Mem.head _)

/-- C4 counterexample: the claim that flattening "leaves the input Record
unmodified" is false on the code: the loop writes the flattened values
back into the same dict (`row[k] = ...`), so after flattening a record
with the list field `x = [1,2,3]` the record holds the string `"1|2|3"`
and no longer equals its pre-flattening state. -/
theorem claim_C4_cex :
    flattenRow [("x", Value.vlist [Value.vint 1, Value.vint 2, Value.vint 3])]
      ≠ [("x", Value.vlist [Value.vint 1, Value.vint 2, Value.vint 3])] := by
  rw [show flattenRow
      [("x", Value.vlist [Value.vint 1, Value.vint 2, Value.vint 3])]
      = [("x", Value.vstr "1|2|3")] from rfl]
  simp

/-- C4 (amended): flattening is total and deterministic (it never fails),
but it is performed by in-place mutation of the record's mapping, so the
input record is left unmodified exactly when it contains no list and no
nested-mapping values. -/
theorem claim_C4 (r : Record) :
    flattenRow r = r ↔ ∀ p ∈ r, p.2.isVList = false ∧ p.2.isVDict = false := by
  rw [flattenRow, list_map_eq_self]
  constructor
  · intro h p hp
    obtain ⟨k, v⟩ := p
    have hkv := h (k, v) hp
    simp only [Prod.mk.injEq, true_and] at hkv
    exact (flattenValue_eq_self_iff v).mp hkv
  · intro h p hp
    obtain ⟨k, v⟩ := p
    have hv := (flattenValue_eq_self_iff v).mpr (h (k, v) hp)
    simp only [hv]

/-- C7: a sequence-valued field `[1,2,3]` flattens to the single pipe-joined
string `"1|2|3"`; in general every sequence value is joined with the pipe
delimiter after converting each element with Python `str`. -/
theorem claim_C7 :
    (∀ (r : Record) (k : String),
      (k, Value.vlist [Value.vint 1, Value.vint 2, Value.vint 3]) ∈ r →
        (k, Value.vstr "1|2|3") ∈ flattenRow r) ∧
    (∀ xs : List Value, flattenValue (.vlist xs)
      = .vstr (String.intercalate "|" (xs.map pyStr))) :=
  ⟨fun r k h => List.mem_map.mpr
    ⟨(k, Value.vlist [Value.vint 1, Value.vint 2, Value.vint 3]), h, rfl⟩,
   fun xs => rfl⟩

/-- Witness for C7 at the one-field record `[x ↦ [1,2,3]]`. -/
theorem claim_C7_witness :
    ("x", Value.vstr "1|2|3") ∈ flattenRow
      [("x", Value.vlist [Value.vint 1, Value.vint 2, Value.vint 3])] :=
  claim_C7.1 [("x", Value.vlist [Value.vint 1, Value.vint 2, Value.vint 3])]
    "x" (List.Mem.head _)

/-- C8: a nested-mapping field flattens to its compact JSON string, which
preserves all key/value pairs and nesting: decoding that string with the
JSON reader yields exactly the original mapping. -/
theorem claim_C8 (r : Record) (k : String) (m : List (String × Value))
    (h : (k, Value.vdict m) ∈ r) :
    (k, Value.vstr (jsonDumps (Value.vdict m))) ∈ flattenRow r ∧
      jsonParse (jsonDumps (Value.vdict m)) = some (Value.vdict m) :=
  ⟨List.mem_map.mpr ⟨(k, Value.vdict m), h, rfl⟩, jsonParse_jsonDumps _⟩

/-- Witness for C8 at the record `[y ↦ \x7ba:1,b:2\x7d]`. -/
theorem claim_C8_witness :
    (("y", Value.vstr (jsonDumps (Value.vdict
        [("a", Value.vint 1), ("b", Value.vint 2)])))
      ∈ flattenRow [("y", Value.vdict
        [("a", Value.vint 1), ("b", Value.vint 2)])]) ∧
      jsonParse (jsonDumps (Value.vdict
          [("a", Value.vint 1), ("b", Value.vint 2)]))
        = some (Value.vdict [("a", Value.vint 1), ("b", Value.vint 2)]) :=
  claim_C8 [("y", Value.vdict [("a", Value.vint 1), ("b", Value.vint 2)])]
    "y" [("a", Value.vint 1), ("b", Value.vint 2)] (List.Mem.head _)

/-! ## Step lemmas for the pagination loop -/

lemma capReached_none (total : Nat) : capReached none total = false := rfl

lemma capReached_zero (total : Nat) : capReached (some 0) total = false := rfl

lemma capReached_some {N total : Nat} (h0 : N ≠ 0) :
    capReached (some N) total = decide (N ≤ total) := by
  simp [capReached, h0]

lemma FileState.reset_eq_absent (f : FileState) : f.reset = .absent := by
  cases f <;> rfl

lemma flushAll_cons (f : FileState) (b : List Record)
    (bs : List (List Record)) :
    flushAll f (b :: bs) = flushAll (f.append b) bs := rfl

/-- A 429 response: sleep one second and loop again with the state
untouched. -/
lemma runLoop_rate_limited (cfg : QueryCfg) (maxRows : Option Nat)
    (batch : List Record) (rest : List Resp) (offset total : Nat)
    (file : FileState) :
    runLoop cfg maxRows (⟨429, batch⟩ :: rest) offset total file
      = ((runLoop cfg maxRows rest offset total file).1,
        Event.request (queryBody cfg 500 offset) :: Event.sleepMs 1000 ::
          (runLoop cfg maxRows rest offset total file).2) := by
  simp [runLoop]

/-- A non-429 HTTP error status: `raise_for_status` aborts the loop with
the file untouched and no further request issued. -/
lemma runLoop_error (cfg : QueryCfg) (maxRows : Option Nat) {status : Nat}
    (batch : List Record) (rest : List Resp) (offset total : Nat)
    (file : FileState) (h429 : status ≠ 429) (h4 : 400 ≤ status)
    (h6 : status < 600) :
    runLoop cfg maxRows (⟨status, batch⟩ :: rest) offset total file
      = (.failed status file, [Event.request (queryBody cfg 500 offset)]) := by
  simp only [runLoop]
  rw [if_neg (by simpa using h429), if_pos (by exact ⟨h4, h6⟩)]

/-- A successful empty page: the loop breaks and returns the running
total. -/
lemma runLoop_empty (cfg : QueryCfg) (maxRows : Option Nat) {status : Nat}
    (rest : List Resp) (offset total : Nat) (file : FileState)
    (h429 : status ≠ 429) (herr : ¬ (400 ≤ status ∧ status < 600)) :
    runLoop cfg maxRows (⟨status, []⟩ :: rest) offset total file
      = (.done total file, [Event.request (queryBody cfg 500 offset)]) := by
  simp only [runLoop]
  rw [if_neg (by simpa using h429), if_neg (by simpa using herr)]

/-- A successful non-empty page: the whole batch is flattened and flushed,
the counters advance, and only then is the row cap consulted. -/
lemma runLoop_success (cfg : QueryCfg) (maxRows : Option Nat) {status : Nat}
    (x : Record) (bs : List Record) (rest : List Resp) (offset total : Nat)
    (file : FileState) (h429 : status ≠ 429)
    (herr : ¬ (400 ≤ status ∧ status < 600)) :
    runLoop cfg maxRows (⟨status, x :: bs⟩ :: rest) offset total file
      = (if capReached maxRows (total + (x :: bs).length)
        then (.done (total + (x :: bs).length)
            (file.append ((x :: bs).map flattenRow)),
          [Event.request (queryBody cfg 500 offset)])
        else ((runLoop cfg maxRows rest (offset + 500)
            (total + (x :: bs).length)
            (file.append ((x :: bs).map flattenRow))).1,
          Event.request (queryBody cfg 500 offset) ::
            Event.sleepMs cfg.sleepBetweenMs ::
            (runLoop cfg maxRows rest (offset + 500) (total + (x :: bs).length)
              (file.append ((x :: bs).map flattenRow))).2)) := by
  simp only [runLoop]
  rw [if_neg (by simpa using h429), if_neg (by simpa using herr)]

/-! ## Claim theorems: rate limiting, errors, init, cap (C5, C6, C9, C10) -/

/-- C5: on HTTP 429 the fetcher sleeps a fixed one-second backoff and
reissues the identical request — same offset, hence the same body — for
any number `n` of consecutive 429s, with no retry limit; `offset`,
`rows_written` and the file are unchanged across the retries, and the
run's outcome is exactly the outcome on the remaining responses, so a 429
is never surfaced as an error to the caller. -/
theorem claim_C5 (cfg : QueryCfg) (maxRows : Option Nat) (n : Nat)
    (batch : List Record) (rest : List Resp) (offset total : Nat)
    (file : FileState) :
    runLoop cfg maxRows (List.replicate n ⟨429, batch⟩ ++ rest) offset total
        file
      = ((runLoop cfg maxRows rest offset total file).1,
        (List.replicate n [Event.request (queryBody cfg 500 offset),
          Event.sleepMs 1000]).flatten
          ++ (runLoop cfg maxRows rest offset total file).2) := by
  induction n with
  | zero => simp
  | succ n ih =>
    rw [List.replicate_succ, List.cons_append, runLoop_rate_limited, ih,
      List.replicate_succ]
    simp

/-- C9: if token acquisition fails (any HTTP error status from the token
endpoint), extraction aborts before touching the destination: the
pre-existing file state is returned unchanged and no data request is ever
issued. -/
theorem claim_C9 (cfg : QueryCfg) (maxRows : Option Nat) (file0 : FileState)
    (responses : List Resp) (s : Nat) (tok : String) (h4 : 400 ≤ s)
    (h6 : s < 600) :
    igdb_query_all ⟨s, tok⟩ cfg maxRows file0 responses
      = (.authFailed s file0, []) := by
  simp [igdb_query_all, get_app_access_token, h4, h6]

/-- Witness for C9: a 500 from the token endpoint leaves a pre-existing
two-line file exactly as it was. -/
theorem claim_C9_witness :
    igdb_query_all ⟨500, "tok"⟩ ⟨"games", "id,name", none, "id asc", 350⟩
        (some 100) (.file [.raw ["old", "lines"]]) [⟨200, []⟩]
      = (.authFailed 500 (.file [.raw ["old", "lines"]]), []) :=
  claim_C9 ⟨"games", "id,name", none, "id asc", 350⟩ (some 100)
    (.file [.raw ["old", "lines"]]) [⟨200, []⟩] 500 "tok" (by decide)
    (by decide)

/-- C10: a row cap of `0` is falsy in the guard `if max_rows and
total >= max_rows`, so it behaves exactly like no cap at all; with
`max_rows = 0` the loop keeps fetching until the empty page, as the
concrete two-page run shows, instead of stopping at once with zero
rows. -/
theorem claim_C10 :
    (∀ (cfg : QueryCfg) (responses : List Resp) (offset total : Nat)
        (file : FileState),
      runLoop cfg (some 0) responses offset total file
        = runLoop cfg none responses offset total file) ∧
    (igdb_query_all ⟨200, "tok"⟩ ⟨"games", "id,name", none, "id asc", 350⟩
        (some 0) .absent
        [⟨200, [[("id", Value.vint 1)]]⟩, ⟨200, [[("id", Value.vint 2)]]⟩,
          ⟨200, []⟩]).1
      = .done 2 (.file [.flushed true [[("id", Value.vint 1)]],
          .flushed false [[("id", Value.vint 2)]]]) := by
  constructor
  · intro cfg responses
    induction responses with
    | nil => intro offset total file; rfl
    | cons r rest ih =>
      intro offset total file
      obtain ⟨st, batch⟩ := r
      simp only [runLoop, ih]
      cases batch <;> simp [capReached]
  · rfl

/-- Running the loop over a block of successful, non-empty pages with no
row cap: every batch is flattened and flushed in order and the counters
advance one page at a time. -/
lemma runLoop_flush_batches (cfg : QueryCfg) :
    ∀ (batches : List (List Record)) (rest : List Resp) (offset total : Nat)
      (file : FileState), (∀ b ∈ batches, b ≠ []) →
      (runLoop cfg none (batches.map (fun b => Resp.mk 200 b) ++ rest) offset
          total file).1
        = (runLoop cfg none rest (offset + 500 * batches.length)
            (total + (batches.map List.length).sum)
            (flushAll file (batches.map (fun b => b.map flattenRow)))).1 := by
  intro batches
  induction batches with
  | nil =>
    intro rest offset total file h
    simp [flushAll]
  | cons b bs ih =>
    intro rest offset total file h
    have hb := h b (by simp)
    obtain ⟨x, bs', rfl⟩ : ∃ x t, b = x :: t := by
      cases b with
      | nil => exact absurd rfl hb
      | cons x t => exact ⟨x, t, rfl⟩
    rw [List.map_cons, List.cons_append,
      runLoop_success _ _ _ _ _ _ _ _ (by decide) (by decide)]
    simp only [capReached_none, Bool.false_eq_true, if_false]
    rw [ih _ _ _ _ (fun y hy => h y (by simp [hy]))]
    simp only [List.length_cons, List.map_cons, List.sum_cons, flushAll_cons]
    rw [show offset + 500 + 500 * bs.length = offset + 500 * (bs.length + 1)
      from by omega]
    rw [Nat.add_assoc]

/-- C6: a non-success, non-429 HTTP status makes `raise_for_status` raise:
the loop aborts at once with the status attached — no further fetch is
issued and the file keeps exactly what was already flushed; end to end,
after a block of successful pages followed by such an error, the
destination holds exactly the flattened rows of those pages, with no
rollback. -/
theorem claim_C6 :
    (∀ (cfg : QueryCfg) (maxRows : Option Nat) (status : Nat)
        (batch : List Record) (rest : List Resp) (offset total : Nat)
        (file : FileState), 400 ≤ status → status < 600 → status ≠ 429 →
      runLoop cfg maxRows (⟨status, batch⟩ :: rest) offset total file
        = (.failed status file,
          [Event.request (queryBody cfg 500 offset)])) ∧
    (∀ (cfg : QueryCfg) (tok : String) (batches : List (List Record))
        (status : Nat) (errb : List Record) (rest : List Resp)
        (file0 : FileState), (∀ b ∈ batches, b ≠ []) →
        400 ≤ status → status < 600 → status ≠ 429 →
      (igdb_query_all ⟨200, tok⟩ cfg none file0
          (batches.map (fun b => Resp.mk 200 b) ++ ⟨status, errb⟩ :: rest)).1
        = .failed status
            (flushAll .absent (batches.map (fun b => b.map flattenRow)))) := by
  refine ⟨fun cfg maxRows status batch rest offset total file h4 h6 h9 =>
    runLoop_error cfg maxRows batch rest offset total file h9 h4 h6, ?_⟩
  intro cfg tok batches status errb rest file0 hne h4 h6 h9
  rw [show igdb_query_all ⟨200, tok⟩ cfg none file0
      (batches.map (fun b => Resp.mk 200 b) ++ ⟨status, errb⟩ :: rest)
      = runLoop cfg none
        (batches.map (fun b => Resp.mk 200 b) ++ ⟨status, errb⟩ :: rest) 0 0
        file0.reset from by
    simp [igdb_query_all, get_app_access_token]]
  rw [FileState.reset_eq_absent]
  rw [runLoop_flush_batches cfg batches _ 0 0 _ hne]
  rw [runLoop_error _ _ _ _ _ _ _ h9 h4 h6]

/-- Witness for C6: one successful one-row page followed by a 503. -/
theorem claim_C6_witness :
    (runLoop ⟨"games", "id,name", none, "id asc", 350⟩ none [⟨500, []⟩] 0 0
        .absent
      = (.failed 500 .absent,
        [Event.request
          (queryBody ⟨"games", "id,name", none, "id asc", 350⟩ 500 0)])) ∧
    ((igdb_query_all ⟨200, "t"⟩ ⟨"games", "id,name", none, "id asc", 350⟩ none
        .absent
        ([[[("id", Value.vint 1)]]].map (fun b => Resp.mk 200 b)
          ++ ⟨503, []⟩ :: [])).1
      = .failed 503 (flushAll .absent
          ([[[("id", Value.vint 1)]]].map (fun b => b.map flattenRow)))) :=
  ⟨claim_C6.1 ⟨"games", "id,name", none, "id asc", 350⟩ none 500 [] [] 0 0
      .absent (by decide) (by decide) (by decide),
    claim_C6.2 ⟨"games", "id,name", none, "id asc", 350⟩ "t"
      [[[("id", Value.vint 1)]]] 503 [] [] .absent (by simp) (by decide)
      (by decide) (by decide)⟩

/-- The row cap is consulted only after a whole batch is flushed, so the
final total can overshoot the cap by less than one page; and if every
successful response carries a non-empty batch, the run can only have
finished by reaching the cap. -/
lemma runLoop_cap_bound (cfg : QueryCfg) {N : Nat} (hN : 0 < N) :
    ∀ (responses : List Resp) (offset total : Nat) (file : FileState),
      (∀ r ∈ responses, r.batch.length ≤ 500) → total < N →
      ∀ t f, (runLoop cfg (some N) responses offset total file).1 = .done t f →
        t < N + 500 ∧
          ((∀ r ∈ responses, r.status ≠ 429 →
              ¬ (400 ≤ r.status ∧ r.status < 600) → r.batch ≠ []) → N ≤ t) := by
  intro responses
  induction responses with
  | nil =>
    intro offset total file hlen htot t f hdone
    simp [runLoop] at hdone
  | cons r rest ih =>
    intro offset total file hlen htot t f hdone
    obtain ⟨st, batch⟩ := r
    by_cases h429 : st = 429
    · subst h429
      rw [runLoop_rate_limited] at hdone
      simp only [] at hdone
      obtain ⟨hb, him⟩ := ih offset total file
        (fun r hr => hlen r (by simp [hr])) htot t f hdone
      exact ⟨hb, fun hall => him (fun r hr h1 h2 =>
        hall r (by simp [hr]) h1 h2)⟩
    · by_cases herr : 400 ≤ st ∧ st < 600
      · rw [runLoop_error _ _ _ _ _ _ _ h429 herr.1 herr.2] at hdone
        simp at hdone
      · cases batch with
        | nil =>
          rw [runLoop_empty _ _ _ _ _ _ h429 herr] at hdone
          simp only [RunResult.done.injEq] at hdone
          obtain ⟨rfl, rfl⟩ := hdone
          refine ⟨by omega, fun hall => ?_⟩
          exact absurd rfl (hall ⟨st, []⟩ (by simp) h429 herr)
        | cons x bs =>
          rw [runLoop_success _ _ _ _ _ _ _ _ h429 herr] at hdone
          have hb : (x :: bs).length ≤ 500 := hlen ⟨st, x :: bs⟩ (by simp)
          by_cases hcap : capReached (some N) (total + (x :: bs).length) = true
          · rw [if_pos hcap] at hdone
            simp only [RunResult.done.injEq] at hdone
            obtain ⟨rfl, rfl⟩ := hdone
            rw [capReached_some (by omega)] at hcap
            have hle : N ≤ total + (x :: bs).length := by simpa using hcap
            exact ⟨by omega, fun _ => hle⟩
          · rw [if_neg hcap] at hdone
            simp only [] at hdone
            rw [capReached_some (by omega)] at hcap
            have hlt : total + (x :: bs).length < N := by
              by_contra hcon
              exact hcap (by simpa using Nat.le_of_not_lt hcon)
            obtain ⟨hbnd, him⟩ := ih _ _ _
              (fun r hr => hlen r (by simp [hr])) hlt t f hdone
            exact ⟨hbnd, fun hall => him (fun r hr h1 h2 =>
              hall r (by simp [hr]) h1 h2)⟩

/-- C1 counterexample: with `row_cap = 50`, a server whose first page holds
60 rows makes the extraction return `rows_written = 60`, which exceeds the
cap — the claim "rows_written ≤ N" is false on the code. -/
theorem claim_C1_cex :
    (igdb_query_all ⟨200, "tok"⟩ ⟨"games", "id,name", none, "id asc", 350⟩
        (some 50) .absent
        [⟨200, List.replicate 60 [("id", Value.vint 1)]⟩]).1.total?
      = some 60 ∧ ¬ (60 ≤ 50) :=
  ⟨rfl, by decide⟩

/-- C1 (amended): for a positive row cap `N`, `rows_written` can overshoot
the cap by less than one page — it is always `< N + 500` — and it reaches
at least `N` unless the server is exhausted first (some successful
response carries an empty page). -/
theorem claim_C1 (cfg : QueryCfg) (N : Nat) (tok : String)
    (file0 : FileState) (responses : List Resp) (t : Nat) (f : FileState)
    (hN : 0 < N) (hlen : ∀ r ∈ responses, r.batch.length ≤ 500)
    (hdone : (igdb_query_all ⟨200, tok⟩ cfg (some N) file0 responses).1
      = .done t f) :
    t < N + 500 ∧
      ((∀ r ∈ responses, r.status ≠ 429 →
          ¬ (400 ≤ r.status ∧ r.status < 600) → r.batch ≠ []) → N ≤ t) := by
  rw [show igdb_query_all ⟨200, tok⟩ cfg (some N) file0 responses
      = runLoop cfg (some N) responses 0 0 file0.reset from by
    simp [igdb_query_all, get_app_access_token]] at hdone
  exact runLoop_cap_bound cfg hN responses 0 0 file0.reset hlen hN t f hdone

/-- Witness for C1 at `N = 50` with a single 60-row page: the total 60
satisfies `60 < 550`, and since every success is non-empty, `50 ≤ 60`. -/
theorem claim_C1_witness :
    60 < 50 + 500 ∧
      ((∀ r ∈ [(⟨200, List.replicate 60 [("id", Value.vint 1)]⟩ : Resp)],
          r.status ≠ 429 → ¬ (400 ≤ r.status ∧ r.status < 600) →
          r.batch ≠ []) → 50 ≤ 60) :=
  claim_C1 ⟨"games", "id,name", none, "id asc", 350⟩ 50 "tok" .absent
    [⟨200, List.replicate 60 [("id", Value.vint 1)]⟩] 60
    (.file [.flushed true
      ((List.replicate 60 [("id", Value.vint 1)]).map flattenRow)])
    (by decide) (by simp) rfl

/-- C2: the row cap is a soft ceiling checked only between pages — a
successful non-empty page is always flattened and flushed whole, the
counters advance by the full batch, and only then is  `rows_written ≥
row_cap` tested; consequently, with `row_cap = 50` and a server that
always answers full 500-row pages, extraction stops after the first batch
with `rows_written = 500` and exactly one request issued. -/
theorem claim_C2 :
    (∀ (cfg : QueryCfg) (maxRows : Option Nat) (status : Nat) (x : Record)
        (bs : List Record) (rest : List Resp) (offset total : Nat)
        (file : FileState), status ≠ 429 →
        ¬ (400 ≤ status ∧ status < 600) →
      runLoop cfg maxRows (⟨status, x :: bs⟩ :: rest) offset total file
        = (if capReached maxRows (total + (x :: bs).length)
          then (.done (total + (x :: bs).length)
              (file.append ((x :: bs).map flattenRow)),
            [Event.request (queryBody cfg 500 offset)])
          else ((runLoop cfg maxRows rest (offset + 500)
              (total + (x :: bs).length)
              (file.append ((x :: bs).map flattenRow))).1,
            Event.request (queryBody cfg 500 offset) ::
              Event.sleepMs cfg.sleepBetweenMs ::
              (runLoop cfg maxRows rest (offset + 500)
                (total + (x :: bs).length)
                (file.append ((x :: bs).map flattenRow))).2))) ∧
    (∀ (cfg : QueryCfg) (tok : String) (k : Nat) (b : List Record)
        (file0 : FileState), 1 ≤ k → b.length = 500 →
      igdb_query_all ⟨200, tok⟩ cfg (some 50) file0
          (List.replicate k ⟨200, b⟩)
        = (.done 500 (FileState.absent.append (b.map flattenRow)),
          [Event.request (queryBody cfg 500 0)])) := by
  refine ⟨fun cfg maxRows status x bs rest offset total file h429 herr =>
    runLoop_success cfg maxRows x bs rest offset total file h429 herr, ?_⟩
  intro cfg tok k b file0 hk hb
  obtain ⟨k2, rfl⟩ : ∃ k2, k = k2 + 1 := ⟨k - 1, by omega⟩
  obtain ⟨x, bs, rfl⟩ : ∃ x bs, b = x :: bs := by
    cases b with
    | nil => simp at hb
    | cons x bs => exact ⟨x, bs, rfl⟩
  rw [List.replicate_succ]
  rw [show igdb_query_all ⟨200, tok⟩ cfg (some 50) file0
      (⟨200, x :: bs⟩ :: List.replicate k2 ⟨200, x :: bs⟩)
      = runLoop cfg (some 50)
        (⟨200, x :: bs⟩ :: List.replicate k2 ⟨200, x :: bs⟩) 0 0 file0.reset
      from by simp [igdb_query_all, get_app_access_token]]
  rw [FileState.reset_eq_absent]
  rw [runLoop_success _ _ _ _ _ _ _ _ (by decide) (by decide)]
  rw [hb]
  rw [if_pos (by decide)]

/-- Witness for C2 at one full page of 500 rows. -/
theorem claim_C2_witness :
    1 ≤ 1 ∧ (List.replicate 500 [("id", Value.vint 1)]).length = 500 ∧
      igdb_query_all ⟨200, "tok"⟩ ⟨"games", "id,name", none, "id asc", 350⟩
          (some 50) .absent
          (List.replicate 1 ⟨200, List.replicate 500 [("id", Value.vint 1)]⟩)
        = (.done 500 (FileState.absent.append
            ((List.replicate 500 [("id", Value.vint 1)]).map flattenRow)),
          [Event.request (queryBody
            ⟨"games", "id,name", none, "id asc", 350⟩ 500 0)]) :=
  ⟨by decide, by rw [List.length_replicate],
    claim_C2.2 ⟨"games", "id,name", none, "id asc", 350⟩ "tok" 1
      (List.replicate 500 [("id", Value.vint 1)]) .absent (by decide)
      (by rw [List.length_replicate])⟩

/-- Witness for C4 at the scalar-only record `[id ↦ 1]`. -/
theorem claim_C4_witness :
    flattenRow [("id", Value.vint 1)] = [("id", Value.vint 1)] ↔
      ∀ p ∈ [("id", Value.vint 1)],
        p.2.isVList = false ∧ p.2.isVDict = false :=
  claim_C4 [("id", Value.vint 1)]

/-- Witness for C5 at two consecutive 429s before an empty page. -/
theorem claim_C5_witness :
    runLoop ⟨"games", "id,name", none, "id asc", 350⟩ none
        (List.replicate 2 ⟨429, []⟩ ++ [⟨200, []⟩]) 0 0 .absent
      = ((runLoop ⟨"games", "id,name", none, "id asc", 350⟩ none
            [⟨200, []⟩] 0 0 .absent).1,
        (List.replicate 2 [Event.request (queryBody
            ⟨"games", "id,name", none, "id asc", 350⟩ 500 0),
          Event.sleepMs 1000]).flatten
          ++ (runLoop ⟨"games", "id,name", none, "id asc", 350⟩ none
            [⟨200, []⟩] 0 0 .absent).2) :=
  claim_C5 ⟨"games", "id,name", none, "id asc", 350⟩ none 2 [] [⟨200, []⟩]
    0 0 .absent

end IgdbData